import Mathlib

/-!
# Round-robin dispatch of `main.go`

A shallow embedding of the load balancer's selection code
(`LoadBalancer`, `NewLoadBalancer`, `getNextAvaiableServer`) together with the
properties of its rotation cursor.

Modelling decisions, all taken from the Go source:

* `Server` is an interface; the selection code only observes `IsAlive()` and hands
  the value back, so a backend is the record of what `Address()` and `IsAlive()`
  answer.
* `rountRobinCount` is a Go `int`: a signed 64-bit two's complement integer.
  `++` wraps around, `%` is the truncated remainder (sign of the dividend) and
  aborts on a zero divisor, and slice indexing aborts outside `[0, len)`.
* The `for !server.IsAlive()` loop has no bound in the source, so it is run with
  fuel: one unit per execution of the loop body.
-/

namespace LB

/-- One backend as the dispatcher sees it: the answers of `Address()` and `IsAlive()`. -/
structure Server where
  addr : String
  alive : Bool
deriving DecidableEq

/-- The `Address()` method. -/
def Server.Address (s : Server) : String := s.addr

/-- The `IsAlive()` method. -/
def Server.IsAlive (s : Server) : Bool := s.alive

/-- The struct `LoadBalancer`. -/
structure LoadBalancer where
  port : String
  rountRobinCount : Int
  servers : List Server
deriving DecidableEq

/-- The constructor `NewLoadBalancer`: it stores its arguments and sets the cursor to 0. -/
def NewLoadBalancer (port : String) (servers : List Server) : LoadBalancer :=
  { port := port, rountRobinCount := 0, servers := servers }

/-- Largest value of a Go `int` (64 bits). -/
def maxInt : Int := 9223372036854775807

/-- Smallest value of a Go `int` (64 bits). -/
def minInt : Int := -9223372036854775808

/-- Reduction of a mathematical integer to the 64-bit two's complement range. -/
def wrapInt (x : Int) : Int :=
  (x + 9223372036854775808) % 18446744073709551616 - 9223372036854775808

/-- The statement `x++` on a Go `int`. -/
def incr (x : Int) : Int := wrapInt (x + 1)

/-- The run-time aborts the selection code can raise. -/
inductive GoPanic where
  | integerDivideByZero
  | indexOutOfRange
deriving DecidableEq

/-- The expression `a % b` on Go `int`s. -/
def goRem (a b : Int) : Except GoPanic Int :=
  if b = 0 then .error .integerDivideByZero else .ok (Int.tmod a b)

/-- The expression `xs[i]` on a slice with an `int` index. -/
def goIndex (xs : List Server) (i : Int) : Except GoPanic Server :=
  if i < 0 then .error .indexOutOfRange
  else
    match xs[i.toNat]? with
    | some s => .ok s
    | none => .error .indexOutOfRange

/-- The expression `lb.servers[lb.rountRobinCount%len(lb.servers)]`. -/
def currentServer (lb : LoadBalancer) : Except GoPanic Server :=
  match goRem lb.rountRobinCount (lb.servers.length : Int) with
  | .error p => .error p
  | .ok i => goIndex lb.servers i

/-- How a run of the selection code stands: it returned a value, it aborted with a
run-time panic (the balancer is left as it was at that moment), or it is still
inside the loop when the fuel is used up. -/
inductive Outcome (α : Type) where
  | returned (a : α)
  | panicked (p : GoPanic) (lb : LoadBalancer)
  | running
deriving DecidableEq

/-- What a finished selection hands back: the chosen backend, the balancer after the
call, and (ghost) the number of times the loop body ran, i.e. the backends skipped. -/
structure Selection where
  server : Server
  lb : LoadBalancer
  skipped : Nat
deriving DecidableEq

/-- The loop `for !server.IsAlive() { lb.rountRobinCount++; server = ... }`.
`fuel` bounds the executions of the body, `k` counts them. -/
def scanLoop : Nat → LoadBalancer → Server → Nat → Outcome Selection
  | fuel, lb, server, k =>
    if server.IsAlive then .returned { server := server, lb := lb, skipped := k }
    else
      match fuel with
      | 0 => .running
      | fuel + 1 =>
        let lb1 := { lb with rountRobinCount := incr lb.rountRobinCount }
        match currentServer lb1 with
        | .error p => .panicked p lb1
        | .ok s => scanLoop fuel lb1 s (k + 1)

/-- The method `getNextAvaiableServer`. -/
def getNextAvaiableServer (fuel : Nat) (lb : LoadBalancer) : Outcome Selection :=
  match currentServer lb with
  | .error p => .panicked p lb
  | .ok server =>
    match scanLoop fuel lb server 0 with
    | .returned r =>
      .returned { r with lb := { r.lb with rountRobinCount := incr r.lb.rountRobinCount } }
    | .panicked p lb1 => .panicked p lb1
    | .running => .running

/-- A number of sequential calls of `getNextAvaiableServer` on one balancer, as
`serveProxy` issues them request after request: the backends returned, in order, and
the balancer after the last call. A call that does not return ends the sequence. -/
def calls (fuel : Nat) : Nat → LoadBalancer → Outcome (List Server × LoadBalancer)
  | 0, lb => .returned ([], lb)
  | m + 1, lb =>
    match getNextAvaiableServer fuel lb with
    | .panicked p lb1 => .panicked p lb1
    | .running => .running
    | .returned r =>
      match calls fuel m r.lb with
      | .returned (out, lb2) => .returned (r.server :: out, lb2)
      | .panicked p lb2 => .panicked p lb2
      | .running => .running

/-- A `simpleServer` as the dispatcher sees it: its `IsAlive` always answers `true`. -/
def simpleServer (addr : String) : Server := { addr := addr, alive := true }

/-- The pool built in `main`. -/
def mainServers : List Server :=
  [simpleServer "https://www.facebook.com", simpleServer "https://www.bing.com",
   simpleServer "https://www.google.com"]

/-- The balancer built in `main`. -/
def mainBalancer : LoadBalancer := NewLoadBalancer "8081" mainServers

/-- A pool of three backends of which only the middle one is alive. -/
def middleAlivePool : List Server :=
  [{ addr := "a", alive := false }, { addr := "b", alive := true }, { addr := "c", alive := false }]

/-- A pool of three backends of which only the middle one is not alive. -/
def oneDeadPool : List Server :=
  [{ addr := "a", alive := true }, { addr := "b", alive := false }, { addr := "c", alive := true }]

/-- A pool of three backends none of which is alive. -/
def allDeadPool : List Server :=
  [{ addr := "a", alive := false }, { addr := "b", alive := false }, { addr := "c", alive := false }]

/-- Reference for the skip-dead property, in its own words: the first pool index
different from `k` met when scanning forward from position `q`, wrapping modulo `n`. -/
def firstOther (n k q : Nat) : Nat :=
  if q % n = k then (q + 1) % n else q % n

/-- Reference for the skip-dead property, in its own words: the cyclic sequence of the
pool indices with index `k` left out, read from position `q` on. Each entry is followed
by the next index different from `k`, wrapping modulo `n`. -/
def cyclicWithout (n k q : Nat) : Nat → Nat
  | 0 => firstOther n k q
  | i + 1 => firstOther n k (cyclicWithout n k q i + 1)

/-! ## Arithmetic of the cursor -/

theorem incr_of_lt_maxInt {x : Int} (h0 : 0 ≤ x) (h1 : x < maxInt) : incr x = x + 1 := by
  unfold incr wrapInt
  unfold maxInt at h1
  omega

theorem incr_maxInt : incr maxInt = minInt := by decide

/-- The lookup at a non-negative cursor is the list lookup at the remainder. -/
theorem currentServer_natCast (port : String) (servers : List Server) (c : Nat)
    (hne : servers ≠ []) :
    currentServer ⟨port, (c : Int), servers⟩ =
      match servers[c % servers.length]? with
      | some s => .ok s
      | none => .error .indexOutOfRange := by
  have hlen : servers.length ≠ 0 := by
    intro h
    exact hne (List.length_eq_zero.mp h)
  have hcast : ((servers.length : Nat) : Int) ≠ 0 := by exact_mod_cast hlen
  have hrem : Int.tmod (c : Int) (servers.length : Int) = ((c % servers.length : Nat) : Int) :=
    (Int.ofNat_tmod c servers.length).symm
  simp only [currentServer, goRem, if_neg hcast, hrem, goIndex]
  have hneg : ¬ (((c % servers.length : Nat) : Int) < 0) := by omega
  rw [if_neg hneg, Int.toNat_ofNat]

theorem currentServer_of_getElem? (port : String) (servers : List Server) (c : Nat) (s : Server)
    (hs : servers[c % servers.length]? = some s) :
    currentServer ⟨port, (c : Int), servers⟩ = .ok s := by
  have hne : servers ≠ [] := by
    intro h
    subst h
    simp at hs
  rw [currentServer_natCast port servers c hne, hs]

/-- The loop stops at once on an alive backend, whatever the fuel. -/
theorem scanLoop_alive (fuel : Nat) (lb : LoadBalancer) (cur : Server) (k : Nat)
    (h : cur.IsAlive = true) :
    scanLoop fuel lb cur k = .returned ⟨cur, lb, k⟩ := by
  cases fuel <;> simp [scanLoop, h]

/-! ## One call from a non-negative cursor -/

/-- The loop started at cursor `c` on the backend of slot `c % n`: when the next `d`
slots hold backends that are not alive, slot `(c + d) % n` holds an alive one and the
cursor does not pass `maxInt` on the way, the loop stops after `d` rounds at `c + d`. -/
theorem scanLoop_first_alive (port : String) (servers : List Server) (t : Server) :
    ∀ (d c fuel k : Nat) (cur : Server),
      servers[c % servers.length]? = some cur →
      servers[(c + d) % servers.length]? = some t →
      t.IsAlive = true →
      (∀ j, j < d → ∀ s, servers[(c + j) % servers.length]? = some s → s.IsAlive = false) →
      (c : Int) + (d : Int) ≤ maxInt →
      d ≤ fuel →
      scanLoop fuel ⟨port, (c : Int), servers⟩ cur k =
        .returned ⟨t, ⟨port, ((c + d : Nat) : Int), servers⟩, k + d⟩ := by
  intro d
  induction d with
  | zero =>
    intro c fuel k cur hcur ht halive _ _ _
    have hct : cur = t := by
      rw [Nat.add_zero, hcur] at ht
      exact Option.some.inj ht
    subst hct
    unfold scanLoop
    simp [halive]
  | succ d ih =>
    intro c fuel k cur hcur ht halive hdead hb hfuel
    have hcd : cur.IsAlive = false := hdead 0 (Nat.succ_pos d) cur (by simpa using hcur)
    obtain ⟨f, rfl⟩ : ∃ f, fuel = f + 1 := ⟨fuel - 1, by omega⟩
    have hlt : (c : Int) < maxInt := by
      have : (0 : Int) ≤ (d : Int) := Int.ofNat_nonneg d
      push_cast at hb
      omega
    have hinc : incr (c : Int) = ((c + 1 : Nat) : Int) := by
      rw [incr_of_lt_maxInt (Int.ofNat_nonneg c) hlt]
      push_cast
      rfl
    have hlen : 0 < servers.length := by
      rcases Nat.eq_zero_or_pos servers.length with h | h
      · rw [h] at hcur
        have : servers = [] := List.length_eq_zero.mp h
        subst this
        simp at hcur
      · exact h
    obtain ⟨nxt, hnxt⟩ : ∃ nxt, servers[(c + 1) % servers.length]? = some nxt := by
      have hidx : (c + 1) % servers.length < servers.length := Nat.mod_lt _ hlen
      exact ⟨servers[(c + 1) % servers.length], List.getElem?_eq_getElem hidx⟩
    have hstep := ih (c + 1) f (k + 1) nxt hnxt
      (by rw [show c + 1 + d = c + (d + 1) by omega]; exact ht) halive
      (fun j hj s hs => hdead (j + 1) (by omega) s
        (by rw [show c + (j + 1) = c + 1 + j by omega]; exact hs))
      (by push_cast at hb ⊢; omega) (by omega)
    unfold scanLoop
    simp only [hcd, Bool.false_eq_true, if_false, hinc]
    rw [currentServer_of_getElem? port servers (c + 1) nxt hnxt]
    simp only []
    rw [hstep]
    have e1 : c + 1 + d = c + (d + 1) := by omega
    have e2 : k + 1 + d = k + (d + 1) := by omega
    rw [e1, e2]

/-- One call of `getNextAvaiableServer` at cursor `c` when the scan meets `d` backends
that are not alive and then the alive backend `t`: the call returns `t`, reports `d`
skipped backends and leaves the cursor at `incr (c + d)`. -/
theorem getNext_first_alive (port : String) (servers : List Server) (t : Server)
    (c d fuel : Nat)
    (ht : servers[(c + d) % servers.length]? = some t)
    (halive : t.IsAlive = true)
    (hdead : ∀ j, j < d → ∀ s, servers[(c + j) % servers.length]? = some s → s.IsAlive = false)
    (hb : (c : Int) + (d : Int) ≤ maxInt)
    (hfuel : d ≤ fuel) :
    getNextAvaiableServer fuel ⟨port, (c : Int), servers⟩ =
      .returned ⟨t, ⟨port, incr ((c + d : Nat) : Int), servers⟩, d⟩ := by
  have hlen : 0 < servers.length := by
    rcases Nat.eq_zero_or_pos servers.length with h | h
    · have : servers = [] := List.length_eq_zero.mp h
      subst this
      simp at ht
    · exact h
  obtain ⟨cur, hcur⟩ : ∃ cur, servers[c % servers.length]? = some cur := by
    have hidx : c % servers.length < servers.length := Nat.mod_lt _ hlen
    exact ⟨servers[c % servers.length], List.getElem?_eq_getElem hidx⟩
  unfold getNextAvaiableServer
  rw [currentServer_of_getElem? port servers c cur hcur]
  simp only []
  rw [scanLoop_first_alive port servers t d c fuel 0 cur hcur ht halive hdead hb hfuel]
  simp

/-- In a pool with an alive backend, the scan from any cursor `c` meets one within the
first `n` slots: there is a first offset `d < n` whose slot holds an alive backend. -/
theorem exists_first_alive (servers : List Server) (c : Nat)
    (h : ∃ s, s ∈ servers ∧ s.IsAlive = true) :
    ∃ d t, d < servers.length ∧ servers[(c + d) % servers.length]? = some t ∧
      t.IsAlive = true ∧
      ∀ j, j < d → ∀ s, servers[(c + j) % servers.length]? = some s → s.IsAlive = false := by
  classical
  obtain ⟨a, ha, halive⟩ := h
  obtain ⟨i, hi, hia⟩ := List.getElem_of_mem ha
  have hn : 0 < servers.length := by omega
  have hex : ∃ j, ∃ t, servers[(c + j) % servers.length]? = some t ∧ t.IsAlive = true := by
    refine ⟨i + (servers.length - 1) * c, a, ?_, halive⟩
    have e : (c + (i + (servers.length - 1) * c)) % servers.length = i := by
      have e1 : c + (i + (servers.length - 1) * c) = i + servers.length * c := by
        have : servers.length - 1 + 1 = servers.length := by omega
        calc c + (i + (servers.length - 1) * c)
            = i + ((servers.length - 1) + 1) * c := by ring
          _ = i + servers.length * c := by rw [this]
      rw [e1, Nat.add_mul_mod_self_left, Nat.mod_eq_of_lt hi]
    rw [e, List.getElem?_eq_getElem hi, hia]
  have hmin : ∀ m, m < Nat.find hex →
      ¬ ∃ t, servers[(c + m) % servers.length]? = some t ∧ t.IsAlive = true :=
    fun m hm => Nat.find_min hex hm
  obtain ⟨t, ht, hta⟩ := Nat.find_spec hex
  refine ⟨Nat.find hex, t, ?_, ht, hta, ?_⟩
  · by_contra hge
    have hge2 : servers.length ≤ Nat.find hex := Nat.le_of_not_lt hge
    have hlt : Nat.find hex - servers.length < Nat.find hex := by omega
    apply hmin _ hlt
    refine ⟨t, ?_, hta⟩
    have e : (c + (Nat.find hex - servers.length)) % servers.length
        = (c + Nat.find hex) % servers.length := by
      have e1 : c + Nat.find hex = c + (Nat.find hex - servers.length) + servers.length := by
        omega
      rw [e1, Nat.add_mod_right]
    rw [e]
    exact ht
  · intro j hj s hs
    by_contra hne
    have hsa : s.IsAlive = true := by
      cases hb : s.IsAlive with
      | true => rfl
      | false => exact absurd hb hne
    exact hmin j hj ⟨s, hs, hsa⟩

/-! ## Selection result, cursor advance and bounded scan -/

/-- C5 (selection result). For a non-empty pool of size `n` with at least one alive
backend and a cursor `c ≥ 0`, there is a first offset `d < n` of the forward scan from
slot `c mod n` (wrapping modulo `n`) whose backend `t` is alive, every backend visited
before it is not alive, and `getNextAvaiableServer` returns exactly that backend `t`
(having skipped `d` backends) whenever the loop may run `d` times; the cursor values
`c .. c + d` of the scan are those of a Go `int`, i.e. `c + d ≤ maxInt`. -/
theorem selection_returns_first_alive (port : String) (servers : List Server) (c : Nat)
    (hne : servers ≠ [])
    (halive : ∃ s, s ∈ servers ∧ s.IsAlive = true) :
    ∃ d t, d < servers.length ∧
      servers[(c + d) % servers.length]? = some t ∧
      t.IsAlive = true ∧
      (∀ j, j < d → ∃ s, servers[(c + j) % servers.length]? = some s ∧ s.IsAlive = false) ∧
      ((c : Int) + (d : Int) ≤ maxInt → ∀ fuel, d ≤ fuel →
        ∃ r, getNextAvaiableServer fuel ⟨port, (c : Int), servers⟩ = .returned r ∧
          r.server = t ∧ r.skipped = d ∧ r.server.IsAlive = true) := by
  have hn : 0 < servers.length := List.length_pos.mpr hne
  obtain ⟨d, t, hd, ht, hta, hdead⟩ := exists_first_alive servers c halive
  refine ⟨d, t, hd, ht, hta, ?_, ?_⟩
  · intro j hj
    have hidx : (c + j) % servers.length < servers.length := Nat.mod_lt _ hn
    exact ⟨servers[(c + j) % servers.length], List.getElem?_eq_getElem hidx,
      hdead j hj _ (List.getElem?_eq_getElem hidx)⟩
  · intro hb fuel hfuel
    exact ⟨_, getNext_first_alive port servers t c d fuel ht hta hdead hb hfuel, rfl, rfl, hta⟩

/-- C6 (cursor advance). For a non-empty pool with at least one alive backend and a
cursor `c ≥ 0`, let `d` be the number of not-alive backends the scan visits before the
first alive one. Below the overflow boundary (`c + d + 1 ≤ maxInt`) a call returns and
leaves the cursor at exactly `c + skipped + 1` with `skipped = d`; so the cursor
strictly increases, by at least 1, and the returned backend sits at index
`(new cursor - 1) mod n`. Pool and port are untouched. -/
theorem cursor_advances_by_skipped_plus_one (port : String) (servers : List Server) (c : Nat)
    (hne : servers ≠ [])
    (halive : ∃ s, s ∈ servers ∧ s.IsAlive = true) :
    ∃ d, d < servers.length ∧
      (∀ j, j < d → ∃ s, servers[(c + j) % servers.length]? = some s ∧ s.IsAlive = false) ∧
      (∃ t, servers[(c + d) % servers.length]? = some t ∧ t.IsAlive = true) ∧
      ((c : Int) + (d : Int) + 1 ≤ maxInt → ∀ fuel, d ≤ fuel →
        ∃ r, getNextAvaiableServer fuel ⟨port, (c : Int), servers⟩ = .returned r ∧
          r.skipped = d ∧
          r.lb.rountRobinCount = (c : Int) + (r.skipped : Int) + 1 ∧
          (c : Int) + 1 ≤ r.lb.rountRobinCount ∧
          servers[(r.lb.rountRobinCount - 1).toNat % servers.length]? = some r.server ∧
          r.lb.servers = servers ∧ r.lb.port = port) := by
  have hn : 0 < servers.length := List.length_pos.mpr hne
  obtain ⟨d, t, hd, ht, hta, hdead⟩ := exists_first_alive servers c halive
  refine ⟨d, hd, ?_, ⟨t, ht, hta⟩, ?_⟩
  · intro j hj
    have hidx : (c + j) % servers.length < servers.length := Nat.mod_lt _ hn
    exact ⟨servers[(c + j) % servers.length], List.getElem?_eq_getElem hidx,
      hdead j hj _ (List.getElem?_eq_getElem hidx)⟩
  · intro hb fuel hfuel
    have hinc : incr ((c + d : Nat) : Int) = (c : Int) + (d : Int) + 1 := by
      rw [incr_of_lt_maxInt (Int.ofNat_nonneg _) (by push_cast; omega)]
      push_cast
      rfl
    refine ⟨_, getNext_first_alive port servers t c d fuel ht hta hdead (by omega) hfuel,
      rfl, ?_, ?_, ?_, rfl, rfl⟩
    · exact hinc
    · show (c : Int) + 1 ≤ incr ((c + d : Nat) : Int)
      rw [hinc]
      omega
    · show servers[(incr ((c + d : Nat) : Int) - 1).toNat % servers.length]? = some t
      rw [hinc]
      have : ((c : Int) + (d : Int) + 1 - 1).toNat = c + d := by omega
      rw [this]
      exact ht

/-- C10 (bounded scan). For a non-empty pool of size `n` with at least one alive
backend (liveness fixed during the call) and a cursor `c ≥ 0`, the loop of
`getNextAvaiableServer` needs at most `n - 1` rounds: with fuel `n - 1` (or more) the
call returns, having skipped at most `n - 1` backends, i.e. visited at most `n` slots,
and the cursor has advanced by at most `n`. The cursor stays a Go `int` on the way
(`c + skipped + 1 ≤ maxInt`). -/
theorem scan_visits_at_most_n_slots (port : String) (servers : List Server) (c : Nat)
    (hne : servers ≠ [])
    (halive : ∃ s, s ∈ servers ∧ s.IsAlive = true) :
    ∃ d, d + 1 ≤ servers.length ∧
      ((c : Int) + (d : Int) + 1 ≤ maxInt → ∀ fuel, servers.length - 1 ≤ fuel →
        ∃ r, getNextAvaiableServer fuel ⟨port, (c : Int), servers⟩ = .returned r ∧
          r.skipped = d ∧
          r.skipped ≤ servers.length - 1 ∧
          r.skipped + 1 ≤ servers.length ∧
          r.lb.rountRobinCount - (c : Int) = (r.skipped : Int) + 1 ∧
          r.lb.rountRobinCount - (c : Int) ≤ (servers.length : Int)) := by
  have hn : 0 < servers.length := List.length_pos.mpr hne
  obtain ⟨d, t, hd, ht, hta, hdead⟩ := exists_first_alive servers c halive
  refine ⟨d, hd, ?_⟩
  intro hb fuel hfuel
  have hd1 : d ≤ servers.length - 1 := by omega
  have hinc : incr ((c + d : Nat) : Int) = (c : Int) + (d : Int) + 1 := by
    rw [incr_of_lt_maxInt (Int.ofNat_nonneg _) (by push_cast; omega)]
    push_cast
    rfl
  refine ⟨_, getNext_first_alive port servers t c d fuel ht hta hdead (by omega) (by omega),
    rfl, hd1, hd, ?_, ?_⟩
  · show incr ((c + d : Nat) : Int) - (c : Int) = (d : Int) + 1
    rw [hinc]
    omega
  · show incr ((c + d : Nat) : Int) - (c : Int) ≤ (servers.length : Int)
    rw [hinc]
    omega

/-- The selection result at the pool `[a dead, b alive, c dead]` and cursor 5: the scan
visits `c`, `a` and returns `b`. -/
theorem selection_returns_first_alive_witness :
    middleAlivePool ≠ [] ∧ (∃ s, s ∈ middleAlivePool ∧ s.IsAlive = true) ∧
    (∃ d t, d < middleAlivePool.length ∧
      middleAlivePool[(5 + d) % middleAlivePool.length]? = some t ∧
      t.IsAlive = true ∧
      (∀ j, j < d →
        ∃ s, middleAlivePool[(5 + j) % middleAlivePool.length]? = some s ∧ s.IsAlive = false) ∧
      (((5 : Nat) : Int) + (d : Int) ≤ maxInt → ∀ fuel, d ≤ fuel →
        ∃ r, getNextAvaiableServer fuel ⟨"8081", ((5 : Nat) : Int), middleAlivePool⟩ = .returned r ∧
          r.server = t ∧ r.skipped = d ∧ r.server.IsAlive = true)) ∧
    getNextAvaiableServer 2 ⟨"8081", 5, middleAlivePool⟩ =
      .returned ⟨⟨"b", true⟩, ⟨"8081", 8, middleAlivePool⟩, 2⟩ :=
  ⟨by decide, ⟨⟨"b", true⟩, by decide, rfl⟩,
    selection_returns_first_alive "8081" middleAlivePool 5 (by decide)
      ⟨⟨"b", true⟩, by decide, rfl⟩, by decide⟩

/-- The cursor advance at the pool `[a dead, b alive, c dead]` and cursor 5: two
backends skipped, cursor 8 afterwards. -/
theorem cursor_advances_by_skipped_plus_one_witness :
    middleAlivePool ≠ [] ∧ (∃ s, s ∈ middleAlivePool ∧ s.IsAlive = true) ∧
    (∃ d, d < middleAlivePool.length ∧
      (∀ j, j < d →
        ∃ s, middleAlivePool[(5 + j) % middleAlivePool.length]? = some s ∧ s.IsAlive = false) ∧
      (∃ t, middleAlivePool[(5 + d) % middleAlivePool.length]? = some t ∧ t.IsAlive = true) ∧
      (((5 : Nat) : Int) + (d : Int) + 1 ≤ maxInt → ∀ fuel, d ≤ fuel →
        ∃ r, getNextAvaiableServer fuel ⟨"8081", ((5 : Nat) : Int), middleAlivePool⟩ = .returned r ∧
          r.skipped = d ∧
          r.lb.rountRobinCount = ((5 : Nat) : Int) + (r.skipped : Int) + 1 ∧
          ((5 : Nat) : Int) + 1 ≤ r.lb.rountRobinCount ∧
          middleAlivePool[(r.lb.rountRobinCount - 1).toNat % middleAlivePool.length]?
            = some r.server ∧
          r.lb.servers = middleAlivePool ∧ r.lb.port = "8081")) ∧
    getNextAvaiableServer 2 ⟨"8081", 5, middleAlivePool⟩ =
      .returned ⟨⟨"b", true⟩, ⟨"8081", 5 + 2 + 1, middleAlivePool⟩, 2⟩ :=
  ⟨by decide, ⟨⟨"b", true⟩, by decide, rfl⟩,
    cursor_advances_by_skipped_plus_one "8081" middleAlivePool 5 (by decide)
      ⟨⟨"b", true⟩, by decide, rfl⟩, by decide⟩

/-- The bounded scan at the pool `[a dead, b alive, c dead]` and cursor 5: fuel
`n - 1 = 2` is enough. -/
theorem scan_visits_at_most_n_slots_witness :
    middleAlivePool ≠ [] ∧ (∃ s, s ∈ middleAlivePool ∧ s.IsAlive = true) ∧
    (∃ d, d + 1 ≤ middleAlivePool.length ∧
      (((5 : Nat) : Int) + (d : Int) + 1 ≤ maxInt → ∀ fuel, middleAlivePool.length - 1 ≤ fuel →
        ∃ r, getNextAvaiableServer fuel ⟨"8081", ((5 : Nat) : Int), middleAlivePool⟩ = .returned r ∧
          r.skipped = d ∧
          r.skipped ≤ middleAlivePool.length - 1 ∧
          r.skipped + 1 ≤ middleAlivePool.length ∧
          r.lb.rountRobinCount - ((5 : Nat) : Int) = (r.skipped : Int) + 1 ∧
          r.lb.rountRobinCount - ((5 : Nat) : Int) ≤ (middleAlivePool.length : Int))) ∧
    getNextAvaiableServer (middleAlivePool.length - 1) ⟨"8081", 5, middleAlivePool⟩ =
      .returned ⟨⟨"b", true⟩, ⟨"8081", 8, middleAlivePool⟩, 2⟩ :=
  ⟨by decide, ⟨⟨"b", true⟩, by decide, rfl⟩,
    scan_visits_at_most_n_slots "8081" middleAlivePool 5 (by decide)
      ⟨⟨"b", true⟩, by decide, rfl⟩, by decide⟩

/-! ## A pool without an alive backend -/

/-- What the lookup hands back is an element of the pool. -/
theorem currentServer_mem {lb : LoadBalancer} {s : Server}
    (h : currentServer lb = .ok s) : s ∈ lb.servers := by
  unfold currentServer goRem at h
  by_cases hz : ((lb.servers.length : Nat) : Int) = 0
  · simp [hz] at h
  · simp only [if_neg hz] at h
    unfold goIndex at h
    by_cases hneg : Int.tmod lb.rountRobinCount (lb.servers.length : Int) < 0
    · simp [hneg] at h
    · simp only [if_neg hneg] at h
      cases hget : lb.servers[(Int.tmod lb.rountRobinCount (lb.servers.length : Int)).toNat]? with
      | none => simp [hget] at h
      | some t =>
        simp only [hget] at h
        have hst : t = s := by
          injection h
        subst hst
        exact List.getElem?_mem hget

/-- The loop never hands back a backend when it starts on one that is not alive in a
pool without alive backends. -/
theorem scanLoop_all_dead_never_returns :
    ∀ (fuel : Nat) (lb : LoadBalancer) (cur : Server) (k : Nat),
      cur.IsAlive = false →
      (∀ s, s ∈ lb.servers → s.IsAlive = false) →
      ∀ r, scanLoop fuel lb cur k ≠ .returned r := by
  intro fuel
  induction fuel with
  | zero =>
    intro lb cur k hcur _ r
    unfold scanLoop
    simp [hcur]
  | succ f ih =>
    intro lb cur k hcur hall r
    unfold scanLoop
    simp only [hcur, Bool.false_eq_true, if_false]
    cases hnext : currentServer { lb with rountRobinCount := incr lb.rountRobinCount } with
    | error p => simp
    | ok s =>
      simp only []
      have hs : s ∈ lb.servers :=
        @currentServer_mem { lb with rountRobinCount := incr lb.rountRobinCount } s hnext
      exact ih { lb with rountRobinCount := incr lb.rountRobinCount } s (k + 1)
        (hall s hs) hall r

/-- Below the overflow boundary the loop over a pool without alive backends uses up any
amount of fuel: after `fuel` rounds it is still scanning. -/
theorem scanLoop_all_dead_running (port : String) (servers : List Server)
    (hne : servers ≠ [])
    (hall : ∀ s, s ∈ servers → s.IsAlive = false) :
    ∀ (fuel c k : Nat) (cur : Server),
      cur.IsAlive = false →
      (c : Int) + (fuel : Int) ≤ maxInt →
      scanLoop fuel ⟨port, (c : Int), servers⟩ cur k = .running := by
  have hn : 0 < servers.length := List.length_pos.mpr hne
  intro fuel
  induction fuel with
  | zero =>
    intro c k cur hcur _
    unfold scanLoop
    simp [hcur]
  | succ f ih =>
    intro c k cur hcur hb
    have hinc : incr (c : Int) = ((c + 1 : Nat) : Int) := by
      rw [incr_of_lt_maxInt (Int.ofNat_nonneg c) (by push_cast at hb; omega)]
      push_cast
      rfl
    have hidx : (c + 1) % servers.length < servers.length := Nat.mod_lt _ hn
    have hnxt : servers[(c + 1) % servers.length]? = some servers[(c + 1) % servers.length] :=
      List.getElem?_eq_getElem hidx
    unfold scanLoop
    simp only [hcur, Bool.false_eq_true, if_false, hinc]
    rw [currentServer_of_getElem? port servers (c + 1) _ hnxt]
    simp only []
    exact ih (c + 1) (k + 1) _ (hall _ (List.getElem_mem hidx)) (by push_cast at hb ⊢; omega)

/-- A call on a non-empty pool without alive backends never returns. -/
theorem getNext_all_dead_never_returns (port : String) (servers : List Server) (c : Nat)
    (hne : servers ≠ [])
    (hall : ∀ s, s ∈ servers → s.IsAlive = false) (fuel : Nat) (r : Selection) :
    getNextAvaiableServer fuel ⟨port, (c : Int), servers⟩ ≠ .returned r := by
  have hn : 0 < servers.length := List.length_pos.mpr hne
  have hidx : c % servers.length < servers.length := Nat.mod_lt _ hn
  have hcur : servers[c % servers.length]? = some servers[c % servers.length] :=
    List.getElem?_eq_getElem hidx
  have hdead : (servers[c % servers.length]).IsAlive = false := hall _ (List.getElem_mem hidx)
  unfold getNextAvaiableServer
  rw [currentServer_of_getElem? port servers c _ hcur]
  simp only []
  have hnr := scanLoop_all_dead_never_returns fuel ⟨port, (c : Int), servers⟩ _ 0 hdead hall
  cases hscan : scanLoop fuel ⟨port, (c : Int), servers⟩ servers[c % servers.length] 0 with
  | returned r0 => exact absurd hscan (hnr r0)
  | panicked p lb1 => simp
  | running => simp

/-- A call on a non-empty pool without alive backends is still scanning after any
number of rounds that keeps the cursor below the overflow boundary. -/
theorem getNext_all_dead_running (port : String) (servers : List Server) (c : Nat)
    (hne : servers ≠ [])
    (hall : ∀ s, s ∈ servers → s.IsAlive = false) (fuel : Nat)
    (hb : (c : Int) + (fuel : Int) ≤ maxInt) :
    getNextAvaiableServer fuel ⟨port, (c : Int), servers⟩ = .running := by
  have hn : 0 < servers.length := List.length_pos.mpr hne
  have hidx : c % servers.length < servers.length := Nat.mod_lt _ hn
  have hcur : servers[c % servers.length]? = some servers[c % servers.length] :=
    List.getElem?_eq_getElem hidx
  have hdead : (servers[c % servers.length]).IsAlive = false := hall _ (List.getElem_mem hidx)
  unfold getNextAvaiableServer
  rw [currentServer_of_getElem? port servers c _ hcur]
  simp only []
  rw [scanLoop_all_dead_running port servers hne hall fuel c 0 _ hdead hb]

/-- In a pool of one backend every lookup lands on that backend, whatever the cursor,
wrapped or not. -/
theorem currentServer_singleton (port : String) (c : Int) (s : Server) :
    currentServer ⟨port, c, [s]⟩ = .ok s := by
  simp [currentServer, goRem, goIndex]

/-- The loop over a pool of one backend that is not alive uses up any fuel, at every
cursor value: it never ends. -/
theorem scanLoop_singleton_dead (port : String) (s : Server) (hs : s.IsAlive = false) :
    ∀ (fuel : Nat) (c : Int) (k : Nat), scanLoop fuel ⟨port, c, [s]⟩ s k = .running := by
  intro fuel
  induction fuel with
  | zero =>
    intro c k
    unfold scanLoop
    simp [hs]
  | succ f ih =>
    intro c k
    unfold scanLoop
    simp only [hs, Bool.false_eq_true, if_false]
    rw [currentServer_singleton port (incr c) s]
    exact ih (incr c) (k + 1)

/-- A call on a pool of one backend that is not alive never ends. -/
theorem getNext_singleton_dead (port : String) (s : Server) (hs : s.IsAlive = false)
    (fuel : Nat) (c : Int) :
    getNextAvaiableServer fuel ⟨port, c, [s]⟩ = .running := by
  unfold getNextAvaiableServer
  rw [currentServer_singleton port c s]
  simp only []
  rw [scanLoop_singleton_dead port s hs fuel c 0]

/-- C3 (all-dead), as the code behaves. For a non-empty pool whose backends all report
not-alive, `getNextAvaiableServer` never returns a backend, whatever the number of loop
rounds it is given; and its scan is not bounded by the pool size: started at a cursor
`c ≥ 0` it is still scanning after any number `fuel` of rounds that keeps the cursor
within the Go `int` range (`c + fuel ≤ maxInt`). The result type has no
all-backends-down value: a call can only return a backend, abort with a run-time panic
or keep running. -/
theorem all_dead_never_returns_and_keeps_scanning (port : String) (servers : List Server)
    (c : Nat)
    (hne : servers ≠ [])
    (hall : ∀ s, s ∈ servers → s.IsAlive = false) :
    (∀ (fuel : Nat) (r : Selection),
      getNextAvaiableServer fuel ⟨port, (c : Int), servers⟩ ≠ .returned r) ∧
    (∀ (fuel : Nat), (c : Int) + (fuel : Int) ≤ maxInt →
      getNextAvaiableServer fuel ⟨port, (c : Int), servers⟩ = .running) :=
  ⟨fun fuel r => getNext_all_dead_never_returns port servers c hne hall fuel r,
   fun fuel hb => getNext_all_dead_running port servers c hne hall fuel hb⟩

/-- The all-dead behaviour at a pool of three backends none of which is alive. -/
theorem all_dead_never_returns_and_keeps_scanning_witness :
    allDeadPool ≠ [] ∧ (∀ s, s ∈ allDeadPool → s.IsAlive = false) ∧
    (∀ (fuel : Nat) (r : Selection),
      getNextAvaiableServer fuel ⟨"8081", ((0 : Nat) : Int), allDeadPool⟩ ≠ .returned r) ∧
    (∀ (fuel : Nat), ((0 : Nat) : Int) + (fuel : Int) ≤ maxInt →
      getNextAvaiableServer fuel ⟨"8081", ((0 : Nat) : Int), allDeadPool⟩ = .running) :=
  ⟨by decide, by decide,
    all_dead_never_returns_and_keeps_scanning "8081" allDeadPool 0 (by decide) (by decide)⟩

/-- C3, the claim at a concrete pool: three backends, none alive, fresh balancer. After
`3` rounds of the loop, and after a million, the call has neither returned a backend nor
stopped with a failure: it is still scanning, far beyond the three slots of the pool.
And on a fresh balancer over a single backend that is not alive the call never ends,
whatever the number of rounds. -/
theorem all_dead_scan_exceeds_pool_size :
    getNextAvaiableServer 3 (NewLoadBalancer "8081" allDeadPool) = .running ∧
    getNextAvaiableServer 1000000 (NewLoadBalancer "8081" allDeadPool) = .running ∧
    (∀ fuel : Nat,
      getNextAvaiableServer fuel (NewLoadBalancer "8081" [⟨"a", false⟩]) = .running) :=
  ⟨by decide,
   getNext_all_dead_running "8081" allDeadPool 0 (by decide) (by decide) 1000000 (by decide),
   fun fuel => getNext_singleton_dead "8081" ⟨"a", false⟩ rfl fuel 0⟩

/-! ## Construction with an empty pool -/

/-- C4 (empty pool), as the code behaves. `NewLoadBalancer` does not look at its backend
list: called with the empty list it yields a balancer, with cursor 0 and an empty pool.
The failure comes only when dispatch is attempted on it: every call of
`getNextAvaiableServer` aborts with an integer-divide-by-zero panic, returns no backend
and leaves the balancer as it was. -/
theorem empty_pool_constructs_then_dispatch_panics (port : String) (fuel : Nat) :
    NewLoadBalancer port [] = { port := port, rountRobinCount := 0, servers := [] } ∧
    getNextAvaiableServer fuel (NewLoadBalancer port []) =
      .panicked .integerDivideByZero (NewLoadBalancer port []) := by
  constructor
  · rfl
  · unfold getNextAvaiableServer
    rfl

/-- C4, the claim at a concrete input: the constructor applied to the empty list and the
port of `main` hands back a balancer (empty pool, cursor 0), on which a dispatch is then
attempted and aborts. -/
theorem empty_pool_construction_succeeds :
    (NewLoadBalancer "8081" []).servers = [] ∧
    (NewLoadBalancer "8081" []).rountRobinCount = 0 ∧
    getNextAvaiableServer 0 (NewLoadBalancer "8081" []) =
      .panicked .integerDivideByZero ⟨"8081", 0, []⟩ := by
  decide

/-! ## The three-backend scenario -/

/-- C7 (scenario). A fresh balancer over three alive backends `[A, B, C]` returns
`A, B, C, A, B, C` on calls 1 to 6 and stands at cursor 6; when `B` then reports
not-alive, with the balancer otherwise kept as it is, calls 7 to 9 return `A, C, A`.
One round of the loop per call is enough. -/
theorem scenario_three_backends (port a b c : String) (fuel : Nat) :
    calls (fuel + 1) 6 (NewLoadBalancer port [⟨a, true⟩, ⟨b, true⟩, ⟨c, true⟩]) =
      .returned ([⟨a, true⟩, ⟨b, true⟩, ⟨c, true⟩, ⟨a, true⟩, ⟨b, true⟩, ⟨c, true⟩],
        ⟨port, 6, [⟨a, true⟩, ⟨b, true⟩, ⟨c, true⟩]⟩) ∧
    calls (fuel + 1) 3 ⟨port, 6, [⟨a, true⟩, ⟨b, false⟩, ⟨c, true⟩]⟩ =
      .returned ([⟨a, true⟩, ⟨c, true⟩, ⟨a, true⟩],
        ⟨port, 10, [⟨a, true⟩, ⟨b, false⟩, ⟨c, true⟩]⟩) := by
  constructor <;>
    simp [calls, getNextAvaiableServer, scanLoop, scanLoop_alive, currentServer, goRem, goIndex,
      incr, wrapInt, NewLoadBalancer, Server.IsAlive, Int.tmod]

/-! ## Sequences of calls -/

/-- Unfolding of a sequence whose first call returns. -/
theorem calls_succ_of_returned (fuel m : Nat) (lb : LoadBalancer) (r : Selection)
    (out : List Server) (lb2 : LoadBalancer)
    (h1 : getNextAvaiableServer fuel lb = .returned r)
    (h2 : calls fuel m r.lb = .returned (out, lb2)) :
    calls fuel (m + 1) lb = .returned (r.server :: out, lb2) := by
  simp only [calls, h1, h2]

/-- A sequence of `a + b` calls is a sequence of `a` calls followed by one of `b`. -/
theorem calls_append (fuel : Nat) :
    ∀ (a b : Nat) (lb lb1 lb2 : LoadBalancer) (o1 o2 : List Server),
      calls fuel a lb = .returned (o1, lb1) →
      calls fuel b lb1 = .returned (o2, lb2) →
      calls fuel (a + b) lb = .returned (o1 ++ o2, lb2) := by
  intro a
  induction a with
  | zero =>
    intro b lb lb1 lb2 o1 o2 h1 h2
    simp only [calls, Outcome.returned.injEq, Prod.mk.injEq] at h1
    obtain ⟨ho, hlb⟩ := h1
    subst ho
    subst hlb
    simpa using h2
  | succ a ih =>
    intro b lb lb1 lb2 o1 o2 h1 h2
    rw [show a + 1 + b = (a + b) + 1 by omega]
    simp only [calls] at h1 ⊢
    cases hg : getNextAvaiableServer fuel lb with
    | panicked p l => simp [hg] at h1
    | running => simp [hg] at h1
    | returned r =>
      simp only [hg] at h1 ⊢
      cases hc : calls fuel a r.lb with
      | panicked p l => simp [hc] at h1
      | running => simp [hc] at h1
      | returned res =>
        obtain ⟨o, l⟩ := res
        simp only [hc, Outcome.returned.injEq, Prod.mk.injEq] at h1
        obtain ⟨ho, hlb⟩ := h1
        subst ho
        subst hlb
        rw [ih b r.lb l lb2 o o2 hc h2]
        simp

/-- A sequence of `a` returning calls followed by a sequence that aborts, aborts. -/
theorem calls_then_panicked (fuel : Nat) :
    ∀ (a b : Nat) (lb lb1 lb2 : LoadBalancer) (o1 : List Server) (p : GoPanic),
      calls fuel a lb = .returned (o1, lb1) →
      calls fuel b lb1 = .panicked p lb2 →
      calls fuel (a + b) lb = .panicked p lb2 := by
  intro a
  induction a with
  | zero =>
    intro b lb lb1 lb2 o1 p h1 h2
    simp only [calls, Outcome.returned.injEq, Prod.mk.injEq] at h1
    obtain ⟨_, hlb⟩ := h1
    subst hlb
    simpa using h2
  | succ a ih =>
    intro b lb lb1 lb2 o1 p h1 h2
    rw [show a + 1 + b = (a + b) + 1 by omega]
    simp only [calls] at h1 ⊢
    cases hg : getNextAvaiableServer fuel lb with
    | panicked q l => simp [hg] at h1
    | running => simp [hg] at h1
    | returned r =>
      simp only [hg] at h1 ⊢
      cases hc : calls fuel a r.lb with
      | panicked q l => simp [hc] at h1
      | running => simp [hc] at h1
      | returned res =>
        obtain ⟨o, l⟩ := res
        simp only [hc, Outcome.returned.injEq, Prod.mk.injEq] at h1
        obtain ⟨_, hlb⟩ := h1
        subst hlb
        rw [ih b r.lb l lb2 o p hc h2]

/-- One call on a pool of alive backends, at a cursor below `maxInt`: it returns the
backend of slot `c % n` without entering the loop and moves the cursor to `c + 1`. -/
theorem getNext_all_alive (port : String) (servers : List Server) (c fuel : Nat)
    (hne : servers ≠ [])
    (hall : ∀ s, s ∈ servers → s.IsAlive = true)
    (hb : (c : Int) + 1 ≤ maxInt) :
    ∃ t, servers[c % servers.length]? = some t ∧
      getNextAvaiableServer fuel ⟨port, (c : Int), servers⟩ =
        .returned ⟨t, ⟨port, ((c + 1 : Nat) : Int), servers⟩, 0⟩ := by
  have hn : 0 < servers.length := List.length_pos.mpr hne
  have hidx : c % servers.length < servers.length := Nat.mod_lt _ hn
  have hcur : servers[c % servers.length]? = some servers[c % servers.length] :=
    List.getElem?_eq_getElem hidx
  refine ⟨servers[c % servers.length], hcur, ?_⟩
  have h := getNext_first_alive port servers servers[c % servers.length] c 0 fuel
    (by simp) (hall _ (List.getElem_mem hidx))
    (fun j hj => absurd hj (Nat.not_lt_zero j)) (by push_cast; omega) (Nat.zero_le _)
  rw [h]
  have hinc : incr ((c + 0 : Nat) : Int) = ((c + 1 : Nat) : Int) := by
    rw [Nat.add_zero, incr_of_lt_maxInt (Int.ofNat_nonneg c) (by omega)]
    push_cast
    rfl
  rw [hinc]

/-- Sequential calls on a pool of alive backends, started at cursor `c`: call `i`
returns the backend of slot `(c + i) % n`, and `m` calls leave the cursor at `c + m`. -/
theorem calls_all_alive (port : String) (servers : List Server) (fuel : Nat)
    (hne : servers ≠ [])
    (hall : ∀ s, s ∈ servers → s.IsAlive = true) :
    ∀ (m c : Nat), (c : Int) + (m : Int) ≤ maxInt →
      ∃ out, calls fuel m ⟨port, (c : Int), servers⟩ =
          .returned (out, ⟨port, ((c + m : Nat) : Int), servers⟩) ∧
        out.length = m ∧
        ∀ i, i < m → out[i]? = servers[(c + i) % servers.length]? := by
  intro m
  induction m with
  | zero =>
    intro c _
    exact ⟨[], by simp [calls], rfl, fun i hi => absurd hi (Nat.not_lt_zero i)⟩
  | succ m ih =>
    intro c hb
    obtain ⟨t, ht, hcall⟩ := getNext_all_alive port servers c fuel hne hall
      (by push_cast at hb; omega)
    obtain ⟨out, hrest, hlen, hpt⟩ := ih (c + 1) (by push_cast at hb ⊢; omega)
    refine ⟨t :: out, ?_, by simp [hlen], ?_⟩
    · have := calls_succ_of_returned fuel m _ _ out _ hcall hrest
      rw [this]
      have e : c + 1 + m = c + (m + 1) := by omega
      simp only [e]
    · intro i hi
      cases i with
      | zero => simpa using ht.symm
      | succ i =>
        have := hpt i (by omega)
        have e : c + 1 + i = c + (i + 1) := by omega
        rw [e] at this
        simpa using this

/-- One full round on a pool of alive backends, started at a cursor that is a multiple
of the pool size: the `n` calls return the pool itself, in its order. -/
theorem calls_one_round (port : String) (servers : List Server) (fuel : Nat)
    (hne : servers ≠ [])
    (hall : ∀ s, s ∈ servers → s.IsAlive = true) (p : Nat)
    (hb : ((servers.length * p : Nat) : Int) + (servers.length : Int) ≤ maxInt) :
    calls fuel servers.length ⟨port, ((servers.length * p : Nat) : Int), servers⟩ =
      .returned (servers, ⟨port, ((servers.length * (p + 1) : Nat) : Int), servers⟩) := by
  obtain ⟨out, hcalls, hlen, hpt⟩ :=
    calls_all_alive port servers fuel hne hall servers.length (servers.length * p) hb
  have hout : out = servers := by
    apply List.ext_getElem?
    intro i
    by_cases hi : i < servers.length
    · rw [hpt i hi, Nat.mul_add_mod, Nat.mod_eq_of_lt hi]
    · have h1 : out[i]? = none := List.getElem?_eq_none (by omega)
      have h2 : servers[i]? = none := List.getElem?_eq_none (by omega)
      rw [h1, h2]
  rw [hcalls, hout]
  have e : servers.length * p + servers.length = servers.length * (p + 1) := by ring
  rw [e]

/-- A whole number `q` of rounds on a pool of alive backends: every backend is returned
`q` times for each slot it occupies in the pool. -/
theorem calls_rounds (port : String) (servers : List Server) (fuel : Nat)
    (hne : servers ≠ [])
    (hall : ∀ s, s ∈ servers → s.IsAlive = true) :
    ∀ (q p : Nat), ((servers.length * p : Nat) : Int) + ((servers.length * q : Nat) : Int) ≤ maxInt →
      ∃ out, calls fuel (servers.length * q) ⟨port, ((servers.length * p : Nat) : Int), servers⟩ =
          .returned (out, ⟨port, ((servers.length * (p + q) : Nat) : Int), servers⟩) ∧
        ∀ s, out.count s = q * servers.count s := by
  intro q
  induction q with
  | zero =>
    intro p _
    exact ⟨[], by simp [calls], by simp⟩
  | succ q ih =>
    intro p hb
    have hmul : servers.length * (q + 1) = servers.length + servers.length * q := by ring
    have hq0 : (0 : Int) ≤ ((servers.length * q : Nat) : Int) := Int.ofNat_nonneg _
    have h1 := calls_one_round port servers fuel hne hall p
      (by rw [hmul] at hb; push_cast at hb ⊢; omega)
    obtain ⟨out, h2, hcount⟩ := ih (p + 1) (by
      rw [hmul] at hb
      have e : servers.length * (p + 1) = servers.length * p + servers.length := by ring
      rw [e]
      push_cast at hb ⊢
      omega)
    refine ⟨servers ++ out, ?_, ?_⟩
    · rw [hmul, calls_append fuel _ _ _ _ _ _ _ h1 h2]
      have e : p + 1 + q = p + (q + 1) := by omega
      rw [e]
    · intro s
      rw [List.count_append, hcount s]
      ring

/-! ## Fairness -/

/-- C1 (fairness). For a pool of `N ≥ 1` backends that are all alive and a balancer
fresh from `NewLoadBalancer` (cursor 0), `M` sequential calls of
`getNextAvaiableServer` all return and leave the cursor at `M`; call `i` (0-based)
returns `servers[i mod N]`; and when `M` is a multiple of `N`, every backend is returned
`M / N` times for each slot it holds in the pool, hence exactly `M / N` times in a pool
of distinct backends. No round of the loop is needed (any fuel). The number of calls is
one the cursor, a Go `int`, can count: `M ≤ maxInt`. -/
theorem fairness_all_alive (port : String) (servers : List Server) (fuel M : Nat)
    (hne : servers ≠ [])
    (hall : ∀ s, s ∈ servers → s.IsAlive = true)
    (hM : (M : Int) ≤ maxInt) :
    ∃ out, calls fuel M (NewLoadBalancer port servers) =
        .returned (out, ⟨port, (M : Int), servers⟩) ∧
      out.length = M ∧
      (∀ i, i < M → out[i]? = servers[i % servers.length]?) ∧
      (servers.length ∣ M → ∀ s, out.count s = M / servers.length * servers.count s) ∧
      (servers.length ∣ M → servers.Nodup →
        ∀ s, s ∈ servers → out.count s = M / servers.length) := by
  have hn : 0 < servers.length := List.length_pos.mpr hne
  obtain ⟨out, hcalls, hlen, hpt⟩ :=
    calls_all_alive port servers fuel hne hall M 0 (by push_cast; omega)
  have hstart : NewLoadBalancer port servers = ⟨port, ((0 : Nat) : Int), servers⟩ := rfl
  have hcount : servers.length ∣ M → ∀ s, out.count s = M / servers.length * servers.count s := by
    intro hdvd s
    obtain ⟨q, hq⟩ := hdvd
    obtain ⟨out2, hcalls2, hcount2⟩ := calls_rounds port servers fuel hne hall q 0
      (by rw [← hq]; push_cast; omega)
    rw [← hq, Nat.mul_zero] at hcalls2
    rw [hcalls] at hcalls2
    simp only [Outcome.returned.injEq, Prod.mk.injEq] at hcalls2
    rw [hcalls2.1, hcount2 s, hq, Nat.mul_div_cancel_left q hn]
  refine ⟨out, ?_, hlen, ?_, hcount, ?_⟩
  · rw [hstart, hcalls]
    simp
  · intro i hi
    have := hpt i hi
    rw [Nat.zero_add] at this
    exact this
  · intro hdvd hnodup s hs
    rw [hcount hdvd s, List.count_eq_one_of_mem hnodup hs, Nat.mul_one]

/-- Fairness at the pool of `main` and six calls. -/
theorem fairness_all_alive_witness :
    mainServers ≠ [] ∧ (∀ s, s ∈ mainServers → s.IsAlive = true) ∧
    ∃ out, calls 0 6 (NewLoadBalancer "8081" mainServers) =
        .returned (out, ⟨"8081", ((6 : Nat) : Int), mainServers⟩) ∧
      out.length = 6 ∧
      (∀ i, i < 6 → out[i]? = mainServers[i % mainServers.length]?) ∧
      (mainServers.length ∣ 6 → ∀ s, out.count s = 6 / mainServers.length * mainServers.count s) ∧
      (mainServers.length ∣ 6 → mainServers.Nodup →
        ∀ s, s ∈ mainServers → out.count s = 6 / mainServers.length) :=
  ⟨by decide, by decide,
    fairness_all_alive "8081" mainServers 0 6 (by decide) (by decide) (by decide)⟩

/-! ## The cursor at the overflow boundary -/

/-- C8 (wraparound), the code at the boundary. The cursor is a signed `int`: for the
pool of `main` (three alive backends) and the cursor value `minInt`, which `++` reaches
from `maxInt`, the effective index `cursor % 3` is `-2`, outside `[0, 3)`. So the call
at cursor `maxInt` returns `servers[1]` and wraps the cursor to `minInt`, the next call
aborts with an index-out-of-range panic, and the balancer of `main` started fresh
aborts in this way on call number `2^63 + 1`. -/
theorem wrapped_cursor_index_out_of_range :
    goRem minInt (mainServers.length : Int) = .ok (-2) ∧
    getNextAvaiableServer 0 ⟨"8081", maxInt, mainServers⟩ =
      .returned ⟨simpleServer "https://www.bing.com", ⟨"8081", minInt, mainServers⟩, 0⟩ ∧
    getNextAvaiableServer 0 ⟨"8081", minInt, mainServers⟩ =
      .panicked .indexOutOfRange ⟨"8081", minInt, mainServers⟩ ∧
    calls 0 9223372036854775809 mainBalancer =
      .panicked .indexOutOfRange ⟨"8081", minInt, mainServers⟩ := by
  refine ⟨by rfl, by decide, by decide, ?_⟩
  obtain ⟨out, hcalls, _, _⟩ :=
    calls_all_alive "8081" mainServers 0 (by decide) (by decide) 9223372036854775807 0
      (by decide)
  have htail : calls 0 2 ⟨"8081", ((0 + 9223372036854775807 : Nat) : Int), mainServers⟩ =
      .panicked .indexOutOfRange ⟨"8081", minInt, mainServers⟩ := by decide
  exact calls_then_panicked 0 9223372036854775807 2 _ _ _ out _ hcalls htail

/-! ## One backend that is not alive -/

/-- The reference index only depends on the scan position modulo the pool size. -/
theorem firstOther_congr (n k a b : Nat) (h : a % n = b % n) :
    firstOther n k a = firstOther n k b := by
  have h1 : (a + 1) % n = (b + 1) % n := by
    rw [Nat.add_mod a 1 n, Nat.add_mod b 1 n, h]
  unfold firstOther
  rw [h, h1]

/-- The successor of `k` modulo `n` differs from `k` as soon as `n ≥ 2`. -/
theorem succ_mod_ne_self (n k : Nat) (hn : 2 ≤ n) (hk : k < n) : (k + 1) % n ≠ k := by
  by_cases h : k + 1 < n
  · rw [Nat.mod_eq_of_lt h]
    omega
  · have e : k + 1 = n := by omega
    rw [e, Nat.mod_self]
    omega

theorem firstOther_lt (n k q : Nat) (hn : 2 ≤ n) : firstOther n k q < n := by
  unfold firstOther
  split <;> exact Nat.mod_lt _ (by omega)

theorem firstOther_ne (n k q : Nat) (hn : 2 ≤ n) (hk : k < n) : firstOther n k q ≠ k := by
  unfold firstOther
  split
  · rename_i h
    rw [Nat.add_mod, h]
    have h1 : 1 % n = 1 := Nat.mod_eq_of_lt (by omega)
    rw [h1]
    exact succ_mod_ne_self n k hn hk
  · rename_i h
    exact h

theorem cyclicWithout_lt (n k q i : Nat) (hn : 2 ≤ n) : cyclicWithout n k q i < n := by
  cases i <;> exact firstOther_lt n k _ hn

theorem cyclicWithout_ne (n k q i : Nat) (hn : 2 ≤ n) (hk : k < n) :
    cyclicWithout n k q i ≠ k := by
  cases i <;> exact firstOther_ne n k _ hn hk

/-- Reading the reference sequence from the position after its first entry gives its
tail. -/
theorem cyclicWithout_shift (n k q q1 : Nat) (h : q1 % n = (firstOther n k q + 1) % n) :
    ∀ i, cyclicWithout n k q1 i = cyclicWithout n k q (i + 1) := by
  intro i
  induction i with
  | zero => exact firstOther_congr n k _ _ h
  | succ i ih =>
    show firstOther n k (cyclicWithout n k q1 i + 1) =
      firstOther n k (cyclicWithout n k q (i + 1) + 1)
    rw [ih]

/-- One call on a pool whose only not-alive backend sits at index `k`: the call returns
the backend of the first index different from `k` from slot `c % n` on, and the cursor
moves just past that index, by one or two. -/
theorem getNext_one_dead (port : String) (servers : List Server) (k c fuel : Nat)
    (hn : 2 ≤ servers.length) (hk : k < servers.length)
    (hdead : ∀ s, servers[k]? = some s → s.IsAlive = false)
    (hothers : ∀ i s, i ≠ k → servers[i]? = some s → s.IsAlive = true)
    (hfuel : 1 ≤ fuel)
    (hb : (c : Int) + 2 ≤ maxInt) :
    ∃ t c1, servers[firstOther servers.length k c]? = some t ∧
      t.IsAlive = true ∧
      getNextAvaiableServer fuel ⟨port, (c : Int), servers⟩ =
        .returned ⟨t, ⟨port, ((c1 : Nat) : Int), servers⟩, c1 - c - 1⟩ ∧
      c < c1 ∧ c1 ≤ c + 2 ∧
      c1 % servers.length = (firstOther servers.length k c + 1) % servers.length := by
  have hpos : 0 < servers.length := by omega
  by_cases hck : c % servers.length = k
  · -- slot `c % n` holds the backend that is not alive: one round of the loop
    have hfo : firstOther servers.length k c = (c + 1) % servers.length := by
      unfold firstOther
      rw [if_pos hck]
    have hidx : (c + 1) % servers.length < servers.length := Nat.mod_lt _ hpos
    have hne : (c + 1) % servers.length ≠ k := by
      have := firstOther_ne servers.length k c hn hk
      rw [hfo] at this
      exact this
    have ht : servers[(c + 1) % servers.length]? = some servers[(c + 1) % servers.length] :=
      List.getElem?_eq_getElem hidx
    have hta : (servers[(c + 1) % servers.length]).IsAlive = true :=
      hothers _ _ hne ht
    have hcall := getNext_first_alive port servers _ c 1 fuel ht hta
      (fun j hj s hs => by
        have hj0 : j = 0 := by omega
        subst hj0
        rw [Nat.add_zero, hck] at hs
        exact hdead s hs)
      (by push_cast; omega) hfuel
    have hinc : incr ((c + 1 : Nat) : Int) = ((c + 2 : Nat) : Int) := by
      rw [incr_of_lt_maxInt (Int.ofNat_nonneg _) (by push_cast; omega)]
      push_cast
      ring
    refine ⟨_, c + 2, by rw [hfo]; exact ht, hta, ?_, by omega, by omega, ?_⟩
    · rw [hcall, hinc]
      have e : c + 2 - c - 1 = 1 := by omega
      rw [e]
    · rw [hfo, Nat.mod_add_mod]
  · -- slot `c % n` holds an alive backend: no round of the loop
    have hfo : firstOther servers.length k c = c % servers.length := by
      unfold firstOther
      rw [if_neg hck]
    have hidx : c % servers.length < servers.length := Nat.mod_lt _ hpos
    have ht : servers[c % servers.length]? = some servers[c % servers.length] :=
      List.getElem?_eq_getElem hidx
    have hta : (servers[c % servers.length]).IsAlive = true := hothers _ _ hck ht
    have hcall := getNext_first_alive port servers _ c 0 fuel (by simp) hta
      (fun j hj => absurd hj (Nat.not_lt_zero j)) (by push_cast; omega) (Nat.zero_le _)
    have hinc : incr ((c + 0 : Nat) : Int) = ((c + 1 : Nat) : Int) := by
      rw [Nat.add_zero, incr_of_lt_maxInt (Int.ofNat_nonneg _) (by omega)]
      push_cast
      rfl
    refine ⟨_, c + 1, by rw [hfo]; exact ht, hta, ?_, by omega, by omega, ?_⟩
    · rw [hcall, hinc]
      have e : c + 1 - c - 1 = 0 := by omega
      rw [e]
    · rw [hfo, Nat.mod_add_mod]

/-- Sequential calls on a pool whose only not-alive backend sits at index `k`, started
at cursor `c`: call `i` returns the backend of entry `i` of the reference sequence read
from position `c`. -/
theorem calls_one_dead (port : String) (servers : List Server) (k fuel : Nat)
    (hn : 2 ≤ servers.length) (hk : k < servers.length)
    (hdead : ∀ s, servers[k]? = some s → s.IsAlive = false)
    (hothers : ∀ i s, i ≠ k → servers[i]? = some s → s.IsAlive = true)
    (hfuel : 1 ≤ fuel) :
    ∀ (m c : Nat), (c : Int) + 2 * (m : Int) ≤ maxInt →
      ∃ out c2, calls fuel m ⟨port, (c : Int), servers⟩ =
          .returned (out, ⟨port, ((c2 : Nat) : Int), servers⟩) ∧
        out.length = m ∧
        c + m ≤ c2 ∧ c2 ≤ c + 2 * m ∧
        ∀ i, i < m → out[i]? = servers[cyclicWithout servers.length k c i]? := by
  intro m
  induction m with
  | zero =>
    intro c _
    exact ⟨[], c, by simp [calls], rfl, by omega, by omega,
      fun i hi => absurd hi (Nat.not_lt_zero i)⟩
  | succ m ih =>
    intro c hb
    obtain ⟨t, c1, ht, _, hcall, hlt, hle, hmod⟩ :=
      getNext_one_dead port servers k c fuel hn hk hdead hothers hfuel
        (by push_cast at hb; omega)
    obtain ⟨out, c2, hrest, hlen, hlo, hhi, hpt⟩ := ih c1 (by push_cast at hb ⊢; omega)
    refine ⟨t :: out, c2, ?_, by simp [hlen], by omega, by omega, ?_⟩
    · exact calls_succ_of_returned fuel m _ _ out _ hcall hrest
    · intro i hi
      cases i with
      | zero => simpa [cyclicWithout] using ht.symm
      | succ i =>
        have h1 := hpt i (by omega)
        rw [cyclicWithout_shift servers.length k c c1 hmod i] at h1
        simpa using h1

/-- Remainder of a number below `2 * n`. -/
theorem mod_of_lt_two_mul (a n : Nat) (h : a < 2 * n) :
    a % n = if a < n then a else a - n := by
  split
  · rename_i hlt
    exact Nat.mod_eq_of_lt hlt
  · rename_i hge
    rw [Nat.mod_eq_sub_mod (by omega)]
    exact Nat.mod_eq_of_lt (by omega)

/-- The reference sequence read from position 0 is the round-robin over the pool with
slot `k` erased: entry `i` is the pool index of slot `i % (n - 1)` of the erased pool. -/
theorem cyclicWithout_zero_eq (n k : Nat) (hn : 2 ≤ n) (hk : k < n) :
    ∀ i, cyclicWithout n k 0 i = if i % (n - 1) < k then i % (n - 1) else i % (n - 1) + 1 := by
  intro i
  induction i with
  | zero =>
    have h0 : 0 % n = 0 := Nat.zero_mod n
    have h1 : (0 + 1) % n = 1 := Nat.mod_eq_of_lt (by omega)
    have h2 : 0 % (n - 1) = 0 := Nat.zero_mod _
    simp only [cyclicWithout, firstOther, h0, h1, h2]
    split_ifs <;> omega
  | succ i ih =>
    have hj : i % (n - 1) < n - 1 := Nat.mod_lt _ (by omega)
    have hsucc : (i + 1) % (n - 1) =
        if i % (n - 1) + 1 < n - 1 then i % (n - 1) + 1 else i % (n - 1) + 1 - (n - 1) := by
      rw [← Nat.mod_add_mod]
      exact mod_of_lt_two_mul _ _ (by omega)
    have hx : cyclicWithout n k 0 i < n := cyclicWithout_lt n k 0 i hn
    have hm1 := mod_of_lt_two_mul (cyclicWithout n k 0 i + 1) n (by omega)
    have hm2 := mod_of_lt_two_mul (cyclicWithout n k 0 i + 1 + 1) n (by omega)
    show firstOther n k (cyclicWithout n k 0 i + 1) = _
    unfold firstOther
    rw [hm1, hm2, hsucc]
    generalize cyclicWithout n k 0 i = x at ih hx ⊢
    generalize i % (n - 1) = j at ih hj ⊢
    subst ih
    split_ifs <;> omega

/-- Entry `i` of the reference sequence read from position 0 selects, in the pool, what
round-robin over the pool with slot `k` erased selects. -/
theorem getElem?_cyclicWithout_zero (servers : List Server) (k i : Nat)
    (hn : 2 ≤ servers.length) (hk : k < servers.length) :
    servers[cyclicWithout servers.length k 0 i]? =
      (servers.eraseIdx k)[i % (servers.length - 1)]? := by
  rw [cyclicWithout_zero_eq servers.length k hn hk i, List.getElem?_eraseIdx]
  split_ifs <;> rfl

/-! ## Skip-dead -/

/-- C2 (skip-dead). Take a pool of `N ≥ 2` backends in which the backend at index `k`
is not alive and all the others are, and a balancer fresh from `NewLoadBalancer`. Then
`M` sequential calls of `getNextAvaiableServer` all return (one round of the loop per
call suffices); call `i` returns the backend at pool index `cyclicWithout N k 0 i`, which
is never `k`; that index sequence starts at the first index different from `k` and each
entry is followed by the next index different from `k`, wrapping modulo `N`; every
returned backend is alive; and the sequence is round-robin over the pool with slot `k`
erased. The cursor moves by at most two per call, and the `M` calls keep it within the
Go `int` range: `2 * M ≤ maxInt`. -/
theorem skip_dead_cyclic_over_others (port : String) (servers : List Server) (k fuel M : Nat)
    (hn : 2 ≤ servers.length) (hk : k < servers.length)
    (hdead : ∀ s, servers[k]? = some s → s.IsAlive = false)
    (hothers : ∀ i s, i ≠ k → servers[i]? = some s → s.IsAlive = true)
    (hfuel : 1 ≤ fuel)
    (hM : 2 * (M : Int) ≤ maxInt) :
    ∃ out lb, calls fuel M (NewLoadBalancer port servers) = .returned (out, lb) ∧
      out.length = M ∧
      (∀ i, i < M →
        out[i]? = servers[cyclicWithout servers.length k 0 i]? ∧
        cyclicWithout servers.length k 0 i ≠ k ∧
        cyclicWithout servers.length k 0 i < servers.length ∧
        out[i]? ≠ servers[k]?) ∧
      cyclicWithout servers.length k 0 0 = (if k = 0 then 1 else 0) ∧
      (∀ i, cyclicWithout servers.length k 0 (i + 1) =
        if (cyclicWithout servers.length k 0 i + 1) % servers.length = k
        then (cyclicWithout servers.length k 0 i + 2) % servers.length
        else (cyclicWithout servers.length k 0 i + 1) % servers.length) ∧
      (∀ s, s ∈ out → s.IsAlive = true) ∧
      (∀ i, i < M → out[i]? = (servers.eraseIdx k)[i % (servers.length - 1)]?) := by
  obtain ⟨out, c2, hcalls, hlen, _, _, hpt⟩ :=
    calls_one_dead port servers k fuel hn hk hdead hothers hfuel M 0 (by push_cast; omega)
  have hidx : ∀ i, cyclicWithout servers.length k 0 i < servers.length :=
    fun i => cyclicWithout_lt servers.length k 0 i (by omega)
  have hnek : ∀ i, cyclicWithout servers.length k 0 i ≠ k :=
    fun i => cyclicWithout_ne servers.length k 0 i hn hk
  have halive : ∀ i, i < M → ∃ t, out[i]? = some t ∧ t.IsAlive = true := by
    intro i hi
    have h1 := hpt i hi
    rw [List.getElem?_eq_getElem (hidx i)] at h1
    exact ⟨_, h1, hothers _ _ (hnek i) (List.getElem?_eq_getElem (hidx i))⟩
  refine ⟨out, _, hcalls, hlen, ?_, ?_, ?_, ?_, ?_⟩
  · intro i hi
    refine ⟨hpt i hi, hnek i, hidx i, ?_⟩
    obtain ⟨t, ht, hta⟩ := halive i hi
    intro heq
    rw [ht] at heq
    have := hdead t heq.symm
    rw [hta] at this
    exact Bool.noConfusion this
  · have h0 : 0 % servers.length = 0 := Nat.zero_mod _
    have h1 : (0 + 1) % servers.length = 1 := Nat.mod_eq_of_lt (by omega)
    simp only [cyclicWithout, firstOther, h0, h1]
    split_ifs <;> omega
  · intro i
    rfl
  · intro s hs
    obtain ⟨i, hi, his⟩ := List.getElem_of_mem hs
    obtain ⟨t, ht, hta⟩ := halive i (by omega)
    rw [List.getElem?_eq_getElem hi, his] at ht
    rw [Option.some.inj ht]
    exact hta
  · intro i hi
    rw [hpt i hi]
    exact getElem?_cyclicWithout_zero servers k i hn hk

/-- Skip-dead at the pool `[a alive, b dead, c alive]`, `k = 1`, and seven calls. -/
theorem skip_dead_cyclic_over_others_witness :
    ∃ out lb, calls 1 7 (NewLoadBalancer "8081" oneDeadPool) = .returned (out, lb) ∧
      out.length = 7 ∧
      (∀ i, i < 7 →
        out[i]? = oneDeadPool[cyclicWithout oneDeadPool.length 1 0 i]? ∧
        cyclicWithout oneDeadPool.length 1 0 i ≠ 1 ∧
        cyclicWithout oneDeadPool.length 1 0 i < oneDeadPool.length ∧
        out[i]? ≠ oneDeadPool[1]?) ∧
      cyclicWithout oneDeadPool.length 1 0 0 = (if 1 = 0 then 1 else 0) ∧
      (∀ i, cyclicWithout oneDeadPool.length 1 0 (i + 1) =
        if (cyclicWithout oneDeadPool.length 1 0 i + 1) % oneDeadPool.length = 1
        then (cyclicWithout oneDeadPool.length 1 0 i + 2) % oneDeadPool.length
        else (cyclicWithout oneDeadPool.length 1 0 i + 1) % oneDeadPool.length) ∧
      (∀ s, s ∈ out → s.IsAlive = true) ∧
      (∀ i, i < 7 → out[i]? = (oneDeadPool.eraseIdx 1)[i % (oneDeadPool.length - 1)]?) :=
  skip_dead_cyclic_over_others "8081" oneDeadPool 1 1 7 (by decide) (by decide)
    (by
      intro s hs
      have h : s = ⟨"b", false⟩ := by simpa [oneDeadPool] using hs.symm
      rw [h]
      rfl)
    (by
      intro i s hi hs
      match i, hi, hs with
      | 0, _, hs =>
        have h : s = ⟨"a", true⟩ := by simpa [oneDeadPool] using hs.symm
        rw [h]
        rfl
      | 1, hi, _ => exact absurd rfl hi
      | 2, _, hs =>
        have h : s = ⟨"c", true⟩ := by simpa [oneDeadPool] using hs.symm
        rw [h]
        rfl
      | i + 3, _, hs => simp [oneDeadPool] at hs)
    (by decide) (by decide)

end LB
